import Mathlib

/-!
Verification development for the corset constraint-system compiler.

The Rust sources embedded here are `src/compiler/generator.rs`,
`src/compute.rs` and (for the legacy pipeline) `src/parser.rs`.
Supporting modules of the repository (`column.rs`, `compiler/node.rs`,
`compiler/types.rs`, `structs.rs`, `compiler/common.rs`,
`compiler/tables.rs`) are not part of the source tree given to us; the
definitions that depend on them are modelled from the specification and
are marked `Modelled from the spec:` in their doc comments.
-/

/-- Order of the BN254 scalar field `Fr` (`pairing_ce::bn256::Fr`). -/
def frOrder : Nat := 21888242871839275222246405745257275088548364400416034343698204186575808495617

/-- The prime field over which all column values live. -/
abbrev Fr := ZMod frOrder

/-- Modelled from the spec: the `Magma` lattice of scalar algebraic types,
ordered `Boolean < Nibble < Byte < Integer < Any` (`compiler/types.rs` is
not under `src/`). -/
inductive Magma where
  | Boolean
  | Nibble
  | Byte
  | Integer
  | Any
deriving DecidableEq, Repr, Fintype

/-- Rank of a magma in the chain `Boolean < Nibble < Byte < Integer < Any`. -/
def Magma.rank : Magma → Nat
  | .Boolean => 0
  | .Nibble => 1
  | .Byte => 2
  | .Integer => 3
  | .Any => 4

/-- Maximum of two magmas in the chain order. -/
def Magma.max (a b : Magma) : Magma := if a.rank ≤ b.rank then b else a

/-- Modelled from the spec: the `Type` of the IR
(`Scalar(Magma) | Column(Magma) | ArrayColumn(Magma) | List(Magma) | Void`,
`compiler/types.rs` is not under `src/`).  Named `Ty` because `Type` is a
Lean keyword. -/
inductive Ty where
  | Scalar (m : Magma)
  | Column (m : Magma)
  | ArrayColumn (m : Magma)
  | List (m : Magma)
  | Void
deriving DecidableEq, Repr, Fintype

/-- Rank of the shape component of a type: `Scalar < Column < ArrayColumn <
List < Void`, matching the declaration order of the variants. -/
def Ty.shapeRank : Ty → Nat
  | .Scalar _ => 0
  | .Column _ => 1
  | .ArrayColumn _ => 2
  | .List _ => 3
  | .Void => 4

/-- The magma carried by a type; `Void` carries none and is treated as the
top magma `Any`, making `Void` the top of the type lattice. -/
def Ty.magma : Ty → Magma
  | .Scalar m => m
  | .Column m => m
  | .ArrayColumn m => m
  | .List m => m
  | .Void => .Any

/-- Rebuild a type from a shape rank and a magma. -/
def Ty.ofShape : Nat → Magma → Ty
  | 0, m => .Scalar m
  | 1, m => .Column m
  | 2, m => .ArrayColumn m
  | 3, m => .List m
  | _, _ => .Void

/-- Modelled from the spec: the lattice order on types — the product of the
shape chain `Scalar < Column < ArrayColumn` (extended with `List` and the
top `Void`) and the magma chain. -/
def Ty.le (a b : Ty) : Prop :=
  a.shapeRank ≤ b.shapeRank ∧ a.magma.rank ≤ b.magma.rank

instance (a b : Ty) : Decidable (Ty.le a b) := by
  unfold Ty.le; exact instDecidableAnd

/-- Modelled from the spec: the join (`Type::max`) used for arithmetic
result typing. -/
def Ty.max (a b : Ty) : Ty :=
  Ty.ofShape (Nat.max a.shapeRank b.shapeRank) (Magma.max a.magma b.magma)

/-- Rust `Type::INFIMUM`, the bottom of the type lattice: `Scalar(Boolean)`. -/
def Ty.INFIMUM : Ty := .Scalar .Boolean

/-- Modelled from the spec: `Type::same_scale`, which keeps the shape of a
type but replaces its magma. -/
def Ty.same_scale (t : Ty) (m : Magma) : Ty :=
  match t with
  | .Scalar _ => .Scalar m
  | .Column _ => .Column m
  | .ArrayColumn _ => .ArrayColumn m
  | .List _ => .List m
  | .Void => .Void

/-- Modelled from the spec: `Type::is_bool` — whether the carried magma is
`Boolean`. -/
def Ty.is_bool (t : Ty) : Bool := decide (t.magma = Magma.Boolean)

/-- Modelled from the spec: a `Handle` is a `(module, name, id?)` triple
identifying a column; `id` is late-bound (`structs.rs` is not under
`src/`). -/
structure Handle where
  module : String
  name : String
  id : Option Nat := none
deriving DecidableEq, Repr

/-- Rust `Handle::set_id`. -/
def Handle.set_id (h : Handle) (i : Option Nat) : Handle := { h with id := i }

/-- The kind of a column.  The `Composite` and `Interleaved` payloads of
the Rust enum are not used by any embedded operation, so they are omitted
here. -/
inductive Kind where
  | Atomic
  | Phantom
  | Composite
  | Interleaved
deriving DecidableEq, Repr

/-- The builtin functions of the current generator
(`generator.rs`, enum `Builtin`). -/
inductive Builtin where
  | Add
  | Sub
  | Mul
  | Exp
  | Shift
  | Neg
  | Inv
  | Not
  | Nth
  | Len
  | Eq
  | Begin
  | IfZero
  | IfNotZero
deriving DecidableEq, Repr

/-- The arity ADT (`Arity` lives in `compiler/common.rs`, which is not
under `src/`; the variants and their semantics are those of `parser.rs`
plus the `Between` case listed in the spec). -/
inductive Arity where
  | AtLeast (n : Nat)
  | AtMost (n : Nat)
  | Even
  | Odd
  | Monadic
  | Dyadic
  | Exactly (n : Nat)
  | Between (lo hi : Nat)
deriving DecidableEq, Repr

/-- Rust `Arity::validate`: whether `l` arguments satisfy the arity. -/
def Arity.accepts (a : Arity) (l : Nat) : Bool :=
  match a with
  | .AtLeast n => n ≤ l
  | .AtMost n => l ≤ n
  | .Even => l % 2 == 0
  | .Odd => l % 2 == 1
  | .Monadic => l == 1
  | .Dyadic => l == 2
  | .Exactly n => l == n
  | .Between lo hi => lo ≤ l && l ≤ hi

/-- Rust `Arity::validate` as a result. -/
def Arity.validate (a : Arity) (l : Nat) : Except String Unit :=
  if a.accepts l then .ok () else .error "arity mismatch"

/-- Rust `Builtin::arity` (generator.rs, `FuncVerifier<Node> for Builtin`). -/
def Builtin.arity : Builtin → Arity
  | .Add => .AtLeast 1
  | .Sub => .AtLeast 1
  | .Mul => .AtLeast 1
  | .Exp => .Exactly 2
  | .Eq => .Exactly 2
  | .Neg => .Monadic
  | .Inv => .Monadic
  | .Not => .Monadic
  | .Shift => .Dyadic
  | .Begin => .AtLeast 1
  | .IfZero => .Between 2 3
  | .IfNotZero => .Between 2 3
  | .Nth => .Dyadic
  | .Len => .Monadic

mutual
/-- Modelled from the spec: the IR `Expression`
(`compiler/node.rs` is not under `src/`; the variants are those of the
spec data model).  `Const` carries the big-integer value and its optional
field image. -/
inductive Expression where
  | Const (x : Int) (f : Option Fr)
  | Column (handle : Handle) (kind : Kind)
  | ArrayColumn (handle : Handle) (domain : List Nat)
  | List (ns : List Node)
  | Funcall (func : Builtin) (args : List Node)
  | Void

/-- Modelled from the spec: an IR `Node` is an expression with an optional
type annotation. -/
inductive Node where
  | mk (e : Expression) (t : Option Ty)
end

/-- The expression of a node. -/
def Node.e : Node → Expression
  | .mk e _ => e

/-- The type annotation of a node. -/
def Node.typ : Node → Option Ty
  | .mk _ t => t

/-- Modelled from the spec: `Node::t`, reading the type annotation;
unannotated nodes default to `Void`. -/
def Node.t (n : Node) : Ty := n.typ.getD .Void

/-- Modelled from the spec: `Node::with_type`, overwriting the
annotation. -/
def Node.with_type (n : Node) (t : Ty) : Node := .mk n.e (some t)

/-- Modelled from the spec: `Node::from_expr` wraps an expression with no
type annotation. -/
def Node.from_expr (e : Expression) : Node := .mk e none

/-- Modelled from the spec: `Node::one`, the constant node `1`. -/
def Node.one : Node := .mk (.Const 1 (some 1)) none

/-- Modelled from the spec: `Node::from_const`. -/
def Node.from_const (x : Int) : Node := .mk (.Const x (some (x : Fr))) none

/-- Rust `Builtin::raw_call`: build the funcall expression without any
validation (generator.rs). -/
def Builtin.raw_call (b : Builtin) (args : List Node) : Expression :=
  .Funcall b args

/-- Rust `Builtin::validate_args` for the new generator: it validates the
*arity only* (generator.rs overrides the `FuncVerifier` default so that
`validate_types` is never invoked on this path). -/
def Builtin.validate_args (b : Builtin) (args : List Node) : Except String Unit :=
  b.arity.validate args.length

/-- Rust `Builtin::call`: validate the arguments, then wrap the raw call in an
unannotated node (generator.rs). -/
def Builtin.call (b : Builtin) (args : List Node) : Except String Node := do
  let _ ← b.validate_args args
  pure (Node.from_expr (b.raw_call args))

/-- Rust `Builtin::typing` (generator.rs): result type from argument types.
The source folds `Type::max` over the argument types starting at
`Type::INFIMUM` (and `iter().max()` with `INFIMUM` default, which agrees
with the fold); indexing (`argtype[i]`) is modelled with `getD _ INFIMUM`,
faithful on every non-panicking call. -/
def Builtin.typing (b : Builtin) (argtype : List Ty) : Ty :=
  match b with
  | .Add | .Sub | .Neg | .Inv =>
    -- Boolean is a corner case, as it is not stable under these operations
    match argtype.foldl Ty.max Ty.INFIMUM with
    | .Scalar .Boolean => .Scalar .Integer
    | .Column .Boolean => .Column .Integer
    | x => x
  | .Exp => argtype.getD 0 Ty.INFIMUM
  | .Eq => argtype.foldl Ty.max Ty.INFIMUM
  | .Not => (argtype.foldl Ty.max Ty.INFIMUM).same_scale .Boolean
  | .Mul => argtype.foldl Ty.max Ty.INFIMUM
  | .IfZero | .IfNotZero => Ty.max (argtype.getD 1 Ty.INFIMUM) (argtype.getD 2 Ty.INFIMUM)
  | .Begin => .List (argtype.foldl Ty.max Ty.INFIMUM).magma
  | .Nth => .Column (argtype.getD 0 Ty.INFIMUM).magma
  | .Shift => argtype.getD 0 Ty.INFIMUM
  | .Len => .Scalar .Integer

/-- The builtin lowering step of `apply` (generator.rs): after the
arguments of a funcall have been reduced, validate the arity and perform
the builtin-specific lowering.  `Nth` needs the symbol table and is out of
scope of this embedding; argument indexing (`traversed_args[i]`) is
modelled with `getD`, faithful because the arity has just been checked. -/
def applyBuiltin (b : Builtin) (args : List Node) : Except String (Option Node) := do
  let _ ← b.validate_args args
  match b with
  | .Begin =>
    -- Begin flattens & concatenates any list argument
    pure (some (.mk
      (.List (args.foldl
        (fun ax e =>
          match e with
          | .mk (.List es) _ => ax ++ es
          | _ => ax ++ [e]) []))
      (some ((args.map Node.t).foldl Ty.max Ty.INFIMUM))))
  | .IfZero | .IfNotZero => (b.call args).map some
  | .Nth => .error "nth requires the symbol table, outside this embedding"
  | .Not =>
    (Builtin.Sub.call [Node.one, args.getD 0 Node.one]).map fun n =>
      some (n.with_type ((args.getD 0 Node.one).t.same_scale .Boolean))
  | .Eq =>
    let x := args.getD 0 Node.one
    let y := args.getD 1 Node.one
    if x.t.is_bool && y.t.is_bool then do
      let s1 ← Builtin.Sub.call [x, y]
      let s2 ← Builtin.Sub.call [x, y]
      -- NOTE in this very specific case, we are sure that the square is boolean
      pure (some (.mk (Builtin.Mul.raw_call [s1, s2]) (some (x.t.same_scale .Boolean))))
    else
      (Builtin.Sub.call [x, y]).map some
  | .Add | .Sub | .Mul | .Exp | .Neg | .Inv | .Shift => (b.call args).map some
  | .Len =>
    match args.getD 0 Node.one with
    | .mk (.ArrayColumn _ domain) _ => pure (some (Node.from_const domain.length))
    | _ => .error "NotAnArray"

/-- Modelled from the spec: the `Computation` enum (`column.rs` is not
under `src/`; variants and fields are those of the spec data model). -/
inductive Computation' where
  | Composite (target : Handle) (exp : Node)
  | Interleaved (target : Handle) (froms : List Handle)
  | Sorted (froms tos : List Handle) (signs : List Bool)
  | CyclicFrom (target : Handle) (froms : List Handle) (modulo : Nat)
  | SortingConstraints (ats : List Handle) (eq delta : Handle)
      (delta_bytes : List Handle) (signs : List Bool) (froms sorted : List Handle)

mutual
/-- Modelled from the spec: the constant shift offsets reachable in a
node, collected by a tree walk (`Node::past_spill`/`future_spill` live in
`compiler/node.rs`, which is not under `src/`). -/
def nodeShiftOffsets : Node → List Int
  | .mk e _ => exprShiftOffsets e

/-- Modelled from the spec: shift-offset collection over an expression.
A `shift` funcall contributes the value of its constant second argument;
the walk recurses through lists and funcall arguments. -/
def exprShiftOffsets : Expression → List Int
  | .Const _ _ => []
  | .Column _ _ => []
  | .ArrayColumn _ _ => []
  | .Void => []
  | .List ns => nodesShiftOffsets ns
  | .Funcall b ns =>
    (if b = .Shift then
      match ns.getD 1 Node.one with
      | .mk (.Const x _) _ => [x]
      | _ => []
     else []) ++ nodesShiftOffsets ns

/-- Shift-offset collection over a list of nodes. -/
def nodesShiftOffsets : List Node → List Int
  | [] => []
  | n :: ns => nodeShiftOffsets n ++ nodesShiftOffsets ns
end

/-- Modelled from the spec: `Node::past_spill`, the minimum (at most 0)
constant shift offset reachable in the expression. -/
def Node.past_spill (n : Node) : Int := (nodeShiftOffsets n).foldl min 0

/-- Modelled from the spec: `Node::future_spill`, the maximum (at least 0)
constant shift offset reachable in the expression. -/
def Node.future_spill (n : Node) : Int := (nodeShiftOffsets n).foldl max 0

/-- The state of `ConstraintSet` relevant to spilling: the registered
computations and the `_spilling` memo map (modelled as an association
list). -/
structure SpillState where
  computations : List Computation'
  _spilling : List (String × Int)

/-- The value computed by the closure inside `spilling_or_insert`
(generator.rs): `|min past_spill| ⊔ max future_spill` over the composite
computations targeting module `m`, with 0 for an empty collection. -/
def computeSpilling (comps : List Computation') (m : String) : Int :=
  max
    (abs ((comps.filterMap fun c =>
      match c with
      | .Composite target exp => if target.module = m then some exp.past_spill else none
      | _ => none).min?.getD 0))
    ((comps.filterMap fun c =>
      match c with
      | .Composite target exp => if target.module = m then some exp.future_spill else none
      | _ => none).max?.getD 0)

/-- Rust `ConstraintSet::spilling_or_insert` (generator.rs): first-touch
memoized spilling per module. -/
def spilling_or_insert (cs : SpillState) (m : String) : Int × SpillState :=
  match cs._spilling.lookup m with
  | some v => (v, cs)
  | none =>
    let v := computeSpilling cs.computations m
    (v, { cs with _spilling := (m, v) :: cs._spilling })

/-- The `Constraint` enum (generator.rs). -/
inductive Constraint where
  | Vanishes (handle : Handle) (domain : Option (List Int)) (expr : Node)
  | Plookup (handle : Handle) (including included : List Node)
  | Permutation (handle : Handle) (fromH toH : List Handle)
  | InRange (handle : Handle) (exp : Node) (max : Fr)

/-- The naming handle of a constraint (as read by `Constraint::name`). -/
def Constraint.handle : Constraint → Handle
  | .Vanishes h _ _ => h
  | .Plookup h _ _ => h
  | .Permutation h _ _ => h
  | .InRange h _ _ => h

mutual
/-- Modelled from the spec: `Node::add_id_to_handles` — apply the
id-setting function to every column/array-column handle embedded in the
expression tree (`compiler/node.rs` is not under `src/`). -/
def nodeAddId (f : Handle → Handle) : Node → Node
  | .mk e t => .mk (exprAddId f e) t

/-- Handle-rewriting over an expression. -/
def exprAddId (f : Handle → Handle) : Expression → Expression
  | .Const x fr => .Const x fr
  | .Column h k => .Column (f h) k
  | .ArrayColumn h d => .ArrayColumn (f h) d
  | .List ns => .List (nodesAddId f ns)
  | .Funcall b ns => .Funcall b (nodesAddId f ns)
  | .Void => .Void

/-- Handle-rewriting over a list of nodes. -/
def nodesAddId (f : Handle → Handle) : List Node → List Node
  | [] => []
  | n :: ns => nodeAddId f n :: nodesAddId f ns
end

mutual
/-- The handles embedded in a node, in tree order. -/
def nodeHandles : Node → List Handle
  | .mk e _ => exprHandles e

/-- The handles embedded in an expression. -/
def exprHandles : Expression → List Handle
  | .Const _ _ => []
  | .Column h _ => [h]
  | .ArrayColumn h _ => [h]
  | .List ns => nodesHandles ns
  | .Funcall _ ns => nodesHandles ns
  | .Void => []

/-- The handles embedded in a list of nodes. -/
def nodesHandles : List Node → List Handle
  | [] => []
  | n :: ns => nodeHandles n ++ nodesHandles ns
end

/-- Rust `Constraint::add_id_to_handles` (generator.rs): rewrite the handles
embedded in the constraint's expressions (and, for permutations, the
from/to lists); the constraint's own naming handle is not visited. -/
def Constraint.add_id_to_handles (f : Handle → Handle) : Constraint → Constraint
  | .Vanishes h d e => .Vanishes h d (nodeAddId f e)
  | .Plookup h xs ys => .Plookup h (nodesAddId f xs) (nodesAddId f ys)
  | .Permutation h hs1 hs2 => .Permutation h (hs1.map f) (hs2.map f)
  | .InRange h e m => .InRange h (nodeAddId f e) m

/-- The handles on which `add_id_to_handles` operates: those embedded in
expressions, plus the from/to lists of a permutation. -/
def Constraint.embeddedHandles : Constraint → List Handle
  | .Vanishes _ _ e => nodeHandles e
  | .Plookup _ xs ys => nodesHandles xs ++ nodesHandles ys
  | .Permutation _ hs1 hs2 => hs1 ++ hs2
  | .InRange _ e _ => nodeHandles e

/-- The constraint part of `ConstraintSet::update_ids` (generator.rs):
every constraint gets `add_id_to_handles` applied with the id-setting
function. -/
def update_ids (f : Handle → Handle) (constraints : List Constraint) : List Constraint :=
  constraints.map (Constraint.add_id_to_handles f)

/-- The pairwise-equality check performed by
`values.windows(2).all(|w| w[0] == w[1])` in `compute_interleaved`
(generator.rs). -/
def pairwiseEqNat : List Nat → Bool
  | x :: y :: rest => x == y && pairwiseEqNat (y :: rest)
  | _ => true

/-- Rust `ConstraintSet::compute_interleaved` (generator.rs) on the values of
the already-computed source columns: check that all lengths agree, then
produce the round-robin interleaving
`values[k] = froms[k % count][k / count]`.  (`Column::get` on an in-range
non-negative index is list indexing; `column.rs` is not under `src/`.) -/
def compute_interleaved (froms : List (List Fr)) : Except String (List Fr) :=
  if !pairwiseEqNat (froms.map List.length) then
    .error "interleaving columns of incoherent lengths"
  else
    let finalLen := (froms.map List.length).sum
    let count := froms.length
    .ok ((List.range finalLen).map fun k =>
      (froms.getD (k % count) []).getD (k / count) 0)

/-- Rust `ConstraintSet::compute_cyclic` (generator.rs) given the module
spilling and the length of the (already computed) first source column:
fail when the length is below the modulus, otherwise produce `spilling`
zeros followed by `i % modulo` cast into the field. -/
def compute_cyclic (spilling : Nat) (fromLen modulo : Nat) : Except String (List Fr) :=
  if fromLen < modulo then
    .error "unable to compute cyclic column"
  else
    .ok (List.replicate spilling 0 ++
      (List.range fromLen).map fun i => ((i % modulo : Nat) : Fr))

/-- The per-column row comparison of `compute_sorting_auxs`
(generator.rs): `get(i).zip(get(i-1)).map(eq).unwrap_or(true)` — the two
reads may fail at row 0 when there is no padding, in which case the rows
count as equal (so that the flag column stays 0).  A sorted column is
modelled by its read function `Int → Option Fr` (`Column::get` lives in
`column.rs`, which is not under `src/`). -/
def colRowsEq (c : Int → Option Fr) (i : Int) : Bool :=
  match c i, c (i - 1) with
  | some v1, some v2 => decide (v1 = v2)
  | _, _ => true

/-- The inner loop over `l` of `compute_sorting_auxs` computing the `@`
flag values of row `i`: the first column whose row differs from its
predecessor gets flag 1, every other column gets 0; the second component
is the final `found` flag. -/
def atsRow (cols : List (Int → Option Fr)) (found : Bool) (i : Int) : List Fr × Bool :=
  match cols with
  | [] => ([], found)
  | c :: rest =>
    let eqb := colRowsEq c i
    let v : Fr := if !eqb then (if found then 0 else 1) else 0
    let found' := found || !eqb
    let (vs, f) := atsRow rest found' i
    (v :: vs, f)

/-- The `Delta` value of row `i` in `compute_sorting_auxs`: zero when the
row's `Eq` value is 1 (no flag set), otherwise the signed sum of
`@ · (sorted[l][i] − sorted[l][i−1])` with a false sign negating the
term.  The source `unwrap`s the two reads; they are modelled by
`getD 0`, which only differs where the source would panic. -/
def deltaRow (cols : List (Int → Option Fr)) (signs : List Bool) (i : Int) : Fr :=
  if (atsRow cols false i).2 then
    (((atsRow cols false i).1.zip (cols.zip signs)).map fun p =>
      let term := (((p.2.1 i).getD 0) - ((p.2.1 (i - 1)).getD 0)) * p.1
      if p.2.2 then term else -term).sum
  else 0

/-- The output columns of `compute_sorting_auxs` that the claims are
about (the 16 `delta_bytes` columns are byte decompositions of `deltas`
and are not needed here). -/
structure SortingAuxs where
  ats : List (List Fr)
  eqs : List Fr
  deltas : List Fr

/-- Rust `ConstraintSet::compute_sorting_auxs` (generator.rs): every output
column starts with `spilling` prefilled rows (`@ = 0`, `Eq = 1`,
`Delta = 0`), followed by one computed row per `i ∈ [0, len)`.  The Rust
loop pushes one value per column per row; this transposed form builds
each column directly from the per-row helpers above. -/
def compute_sorting_auxs (cols : List (Int → Option Fr)) (signs : List Bool)
    (spilling len : Nat) : SortingAuxs where
  ats := (List.range cols.length).map fun l =>
    List.replicate spilling 0 ++
      (List.range len).map fun (i : Nat) => ((atsRow cols false (i : Int)).1.getD l 0)
  eqs := List.replicate spilling 1 ++
    (List.range len).map fun (i : Nat) => if (atsRow cols false (i : Int)).2 then 0 else 1
  deltas := List.replicate spilling 0 ++
    (List.range len).map fun (i : Nat) => deltaRow cols signs (i : Int)

/-- Doubling loop behind `nextPow2`; the fuel is structural so that the
function evaluates inside the kernel. -/
def nextPow2Aux : Nat → Nat → Nat → Nat
  | 0, _, power => power
  | fuel + 1, n, power => if power < n then nextPow2Aux fuel n (power * 2) else power

/-- Rust `usize::next_power_of_two`: the least power of two that is at
least `n` (1 for `n = 0`), computed by doubling from 1.  `n` steps of
fuel always suffice since `n ≤ 2 ^ n`. -/
def nextPow2 (n : Nat) : Nat := nextPow2Aux n n 1

/-- Rust `Vec::resize` as used in `pad` (compute.rs): truncate or extend with
zeros to the requested length. -/
def listResize (xs : List Fr) (n : Nat) : List Fr :=
  if n ≤ xs.length then xs.take n else xs ++ List.replicate (n - xs.length) 0

/-- The per-column body of `pad` (compute.rs): reverse, resize with
zeros, reverse — i.e. prepend zeros (or drop leading rows) to reach the
target length. -/
def padColumn (padTo : Nat) (xs : List Fr) : List Fr :=
  (listResize xs.reverse padTo).reverse

/-- The raw column values of a `ColumnSet`, as consumed by `pad`
(compute.rs): modules in order, each holding named value columns
(`column.rs` is not under `src/`; only the value vectors matter to
`pad`). -/
structure TraceCols where
  cols : List (String × List (String × List Fr))

/-- Modelled from the spec: `ColumnSet::len` as used for `max_len` in
`pad` (compute.rs) — the maximum column length over all modules
(`column.rs` is not under `src/`; the binding is named `max_len` in the
source). -/
def TraceCols.maxLen (r : TraceCols) : Nat :=
  ((r.cols.map fun m => m.2.map fun c => c.2.length).flatten).foldl Nat.max 0

/-- Bit width of the target's `usize`. -/
def usizeBits : Nat := 64

/-- Release-build `usize` subtraction: `a - b` wrapping modulo `2^64`
(for operands below `2^64`, as `usize` values are).  In a debug build the
same subtraction panics when `b > a`. -/
def usizeSub (a b : Nat) : Nat := (a + 2 ^ usizeBits - b) % 2 ^ usizeBits

/-- The `binary.NOT` rewrite of `pad` (compute.rs):
`for x in xs.iter_mut().take(padded) { *x = 255 }` — overwrite the first
`padded` rows of the column with 255. -/
def setNotRows (padded : Nat) (xs : List Fr) : List Fr :=
  (xs.take padded).map (fun _ => (255 : Fr)) ++ xs.drop padded

/-- Rust `pad` (compute.rs): if the set is nonempty, every column of
every module is brought to the single global length
`pad_to = (max_len + 1).next_power_of_two()` by prepending zeros; then,
if a module `binary` has a column `NOT`, its first
`padded = max_len - pad_to` rows are overwritten with 255.  Since
`pad_to > max_len` always, that `usize` subtraction underflows on every
nonempty input: a debug build panics right after computing `pad_to`,
before any padding happens; a release build wraps `padded` to
`2^64 - (pad_to - max_len)`, so the `take(padded)` covers the whole
column and all of `binary.NOT` becomes 255.  This embedding models the
release semantics, with the wrap explicit in `usizeSub`; the debug-build
panic is outside it. -/
def pad (r : TraceCols) : TraceCols :=
  if r.cols.isEmpty then r
  else
    let max_len := r.maxLen
    let padTo := nextPow2 (max_len + 1)
    let padded := usizeSub max_len padTo
    ⟨(r.cols.map fun m => (m.1, m.2.map fun c => (c.1, padColumn padTo c.2))).map
      fun m =>
        if m.1 = "binary" then
          (m.1, m.2.map fun c =>
            if c.1 = "NOT" then (c.1, setNotRows padded c.2) else c)
        else m⟩

/-- Rust `ConstraintSet::compute_all` (generator.rs): run every registered
computation in registration order; a failure is logged as a warning and
the loop continues; the overall result is unconditionally `Ok`.  The
effect of `compute(i)` is abstracted into the oracle `step`; the second
component records, in invocation order, each index together with the
warning it logged (if any). -/
def compute_all (step : Nat → Except String Unit) (count : Nat) :
    Except String Unit × List (Nat × Option String) :=
  (List.range count).foldl
    (fun acc i =>
      match step i with
      | .ok _ => (acc.1, acc.2 ++ [(i, none)])
      | .error e => (acc.1, acc.2 ++ [(i, some e)]))
    (Except.ok (), [])

/-- The IR of the legacy pipeline (`parser.rs`, enum `Constraint`);
named `PConstraint` to distinguish it from the generator IR. -/
inductive PConstraint where
  | Funcall (func : Builtin) (args : List PConstraint)
  | Const (x : Int)
  | Column (name : String)
  | CList (cs : List PConstraint)

/-- The `Builtin::Shift` arm of `validate_types` in the legacy pipeline
(`parser.rs`): the first argument must be a column and the second a
non-zero constant. -/
def pShiftValidateTypes (args : List PConstraint) : Except String Unit :=
  match args.getD 0 (.Const 0), args.getD 1 (.Const 0) with
  | .Column _, .Const x => if x ≠ 0 then .ok () else .error "shift expects a COLUMN and a non-null INTEGER"
  | _, _ => .error "shift expects a COLUMN and a non-null INTEGER"

/-- Rust `validate_args` of the legacy pipeline for `shift` (`parser.rs`,
`FuncVerifier` default): arity (`Dyadic`), then types. -/
def pShiftValidateArgs (args : List PConstraint) : Except String Unit := do
  let _ ← Arity.Dyadic.validate args.length
  pShiftValidateTypes args

/-- Concrete fixture for the C2 witness: a single composite computation
targeting module `m` whose expression shifts a column by `-2`. -/
def c2fix : SpillState :=
  ⟨[Computation'.Composite ⟨"m", "c", none⟩
      (.mk (.Funcall .Shift
        [Node.from_expr (.Column ⟨"m", "x", none⟩ .Atomic),
         Node.from_const (-2)]) none)], []⟩

/-- Concrete fixture for the C1 witness: a single sorted column with two
rows `0, 5` and spilling padding at row `-1`. -/
def c1cols : List (Int → Option Fr) :=
  [fun i => if -1 ≤ i ∧ i < 2 then some (if i ≤ 0 then 0 else 5) else none]

/-! ### Helper lemmas -/

theorem getD_repl_append_lt {α : Type} (s : Nat) (x d : α) (l : List α) (k : Nat)
    (hk : k < s) : (List.replicate s x ++ l).getD k d = x := by
  rw [List.getD_append _ _ _ _ (by simpa using hk)]
  simp [List.getD_eq_getElem?_getD, List.getElem?_replicate, hk]

theorem getD_repl_append_add {α : Type} (s i : Nat) (x d : α) (l : List α) :
    (List.replicate s x ++ l).getD (s + i) d = l.getD i d := by
  rw [List.getD_append_right _ _ _ _ (by simp)]
  simp

theorem getD_map_range {α : Type} (f : Nat → α) (n i : Nat) (d : α) (h : i < n) :
    ((List.range n).map f).getD i d = f i := by
  simp [List.getD_eq_getElem?_getD, List.getElem?_map, List.getElem?_range, h]

theorem map_getD_range_eq {α : Type} (l : List α) (d : α) :
    (List.range l.length).map (fun i => l.getD i d) = l := by
  induction l with
  | nil => rfl
  | cons a t ih =>
    simp only [List.length_cons, List.range_succ_eq_map, List.map_cons, List.map_map]
    exact congrArg _ ih

theorem compute_all_foldl (step : Nat → Except String Unit) (x : Except String Unit)
    (init : List (Nat × Option String)) (l : List Nat) :
    l.foldl (fun acc i =>
      match step i with
      | .ok _ => (acc.1, acc.2 ++ [(i, none)])
      | .error e => (acc.1, acc.2 ++ [(i, some e)])) (x, init)
    = (x, init ++ l.map fun i =>
        (i, match step i with | .ok _ => none | .error e => some e)) := by
  induction l generalizing init with
  | nil => simp
  | cons a t ih =>
    simp only [List.foldl_cons, List.map_cons]
    cases h : step a <;> simp [h, ih]

/-! ### C9 -/

/-- C9: `compute_all` invokes every registered computation in
registration order and always returns `Ok`; a failing computation has its
error logged as a warning and the remaining computations are still
attempted. -/
theorem c9_compute_all_soldiers_on :
    ∀ (step : Nat → Except String Unit) (count : Nat),
      (compute_all step count).1 = Except.ok ()
      ∧ ((compute_all step count).2.map Prod.fst) = List.range count
      ∧ ∀ i, i < count → (compute_all step count).2.getD i (0, none)
          = (i, match step i with | .ok _ => none | .error e => some e) := by
  intro step count
  have h : compute_all step count
      = (Except.ok (), (List.range count).map fun i =>
          (i, match step i with | .ok _ => none | .error e => some e)) := by
    unfold compute_all
    simpa using compute_all_foldl step (Except.ok ()) [] (List.range count)
  refine ⟨by rw [h], ?_, ?_⟩
  · rw [h]
    simp only [List.map_map]
    exact (List.map_congr_left fun i _ => rfl).trans (List.map_id _)
  · intro i hi
    rw [h]
    exact getD_map_range _ _ _ _ (by simpa using hi)

/-! ### C3 -/

/-- C3: in the reducer's `apply` step, `not x` is lowered to `sub(1, x)`
retyped as boolean, and `eq x y` is lowered to
`mul(sub(x,y), sub(x,y))` typed boolean when both argument types are
boolean, and to `sub(x,y)` otherwise. -/
theorem c3_not_eq_lowering :
    (∀ x : Node, applyBuiltin .Not [x]
      = .ok (some (.mk (.Funcall .Sub [Node.one, x])
          (some (x.t.same_scale .Boolean)))))
    ∧ (∀ x y : Node, (x.t.is_bool && y.t.is_bool) = true →
        applyBuiltin .Eq [x, y]
          = .ok (some (.mk
              (.Funcall .Mul
                [.mk (.Funcall .Sub [x, y]) none, .mk (.Funcall .Sub [x, y]) none])
              (some (x.t.same_scale .Boolean)))))
    ∧ (∀ x y : Node, (x.t.is_bool && y.t.is_bool) = false →
        applyBuiltin .Eq [x, y] = .ok (some (.mk (.Funcall .Sub [x, y]) none))) := by
  refine ⟨fun x => rfl, fun x y h => ?_, fun x y h => ?_⟩
  · simp [applyBuiltin, h, Builtin.call, Builtin.validate_args, Builtin.arity,
      Arity.validate, Arity.accepts, Builtin.raw_call, Node.from_expr,
      bind, Except.bind, Except.map, pure, Except.pure]
  · simp [applyBuiltin, h, Builtin.call, Builtin.validate_args, Builtin.arity,
      Arity.validate, Arity.accepts, Builtin.raw_call, Node.from_expr,
      bind, Except.bind, Except.map, pure, Except.pure]

/-- Witness for C3 at concrete boolean- and integer-typed arguments. -/
theorem c3_witness :
    ((Node.mk (.Column ⟨"m", "a", none⟩ .Atomic) (some (.Column .Boolean))).t.is_bool
      && (Node.mk (.Column ⟨"m", "b", none⟩ .Atomic) (some (.Column .Boolean))).t.is_bool) = true
    ∧ applyBuiltin .Eq
        [Node.mk (.Column ⟨"m", "a", none⟩ .Atomic) (some (.Column .Boolean)),
         Node.mk (.Column ⟨"m", "b", none⟩ .Atomic) (some (.Column .Boolean))]
      = .ok (some (.mk
          (.Funcall .Mul
            [.mk (.Funcall .Sub
                [Node.mk (.Column ⟨"m", "a", none⟩ .Atomic) (some (.Column .Boolean)),
                 Node.mk (.Column ⟨"m", "b", none⟩ .Atomic) (some (.Column .Boolean))]) none,
             .mk (.Funcall .Sub
                [Node.mk (.Column ⟨"m", "a", none⟩ .Atomic) (some (.Column .Boolean)),
                 Node.mk (.Column ⟨"m", "b", none⟩ .Atomic) (some (.Column .Boolean))]) none])
          (some ((Node.mk (.Column ⟨"m", "a", none⟩ .Atomic)
              (some (.Column .Boolean))).t.same_scale .Boolean)))) :=
  ⟨rfl, c3_not_eq_lowering.2.1 _ _ rfl⟩

/-! ### C8 -/

/-- C8 counterexample: in the current generator (`generator.rs`),
reducing a `shift` whose offset is the constant `0` *succeeds* —
`apply` only validates the arity (`Builtin::validate_args` is overridden
to skip `validate_types`), so no compile-time "constant ≠ 0" check takes
place, contradicting the claim that a zero offset fails compilation. -/
theorem c8_counterexample :
    applyBuiltin .Shift
      [Node.from_expr (.Column ⟨"m", "X", none⟩ .Atomic), Node.from_const 0]
      = .ok (some (Node.mk
          (.Funcall .Shift
            [Node.from_expr (.Column ⟨"m", "X", none⟩ .Atomic), Node.from_const 0])
          none)) := rfl

/-- C8 (amended): in the legacy pipeline (`parser.rs`), a `shift` call is
accepted exactly when it has two arguments, the first a column and the
second a constant different from zero; in the current generator only the
arity (two arguments) is checked, so a zero (or non-constant) offset is
accepted. -/
theorem c8_shift_offset_amended :
    (∀ args : List PConstraint,
      (pShiftValidateArgs args).isOk = true ↔
        (args.length = 2
          ∧ (∃ s, args.getD 0 (.Const 0) = .Column s)
          ∧ ∃ x, args.getD 1 (.Const 0) = .Const x ∧ x ≠ 0))
    ∧ (∀ x : Node, (applyBuiltin .Shift [x, Node.from_const 0]).isOk = true) := by
  constructor
  · intro args
    unfold pShiftValidateArgs Arity.validate Arity.accepts pShiftValidateTypes
    by_cases h2 : args.length = 2
    · simp only [h2, show ((2 : Nat) == 2) = true from rfl, if_true]
      rcases ha : args.getD 0 (.Const 0) with _ | _ | s | _ <;>
        rcases hb : args.getD 1 (.Const 0) with _ | xv | _ | _ <;>
          simp [Except.isOk, Except.toBool, h2, ha, hb, bind, Except.bind] <;>
            by_cases hx : xv = 0 <;> simp [hx]
    · have : (args.length == 2) = false := by simpa using h2
      simp [this, Except.isOk, Except.toBool, h2, bind, Except.bind]
  · intro x
    rfl

/-! ### C10 -/

mutual
theorem nodeHandles_addId (f : Handle → Handle) :
    ∀ n : Node, nodeHandles (nodeAddId f n) = (nodeHandles n).map f
  | .mk e _ => exprHandles_addId f e

theorem exprHandles_addId (f : Handle → Handle) :
    ∀ e : Expression, exprHandles (exprAddId f e) = (exprHandles e).map f
  | .Const _ _ => rfl
  | .Column _ _ => rfl
  | .ArrayColumn _ _ => rfl
  | .List ns => nodesHandles_addId f ns
  | .Funcall _ ns => nodesHandles_addId f ns
  | .Void => rfl

theorem nodesHandles_addId (f : Handle → Handle) :
    ∀ ns : List Node, nodesHandles (nodesAddId f ns) = (nodesHandles ns).map f
  | [] => rfl
  | n :: ns => by
    simp only [nodesAddId, nodesHandles, List.map_append]
    rw [nodeHandles_addId f n, nodesHandles_addId f ns]
end

/-- C10: `Constraint::add_id_to_handles` (and hence the constraint sweep
of `ConstraintSet::update_ids`) rewrites exactly the handles embedded in
the constraint's expressions and in the from/to lists of a permutation;
the constraint's own naming handle is untouched and its id stays
unset. -/
theorem c10_add_id_frame :
    (∀ (f : Handle → Handle) (c : Constraint),
      (c.add_id_to_handles f).handle = c.handle
      ∧ (c.handle.id = none → (c.add_id_to_handles f).handle.id = none)
      ∧ (c.add_id_to_handles f).embeddedHandles = c.embeddedHandles.map f)
    ∧ ∀ (f : Handle → Handle) (cs : List Constraint),
        (update_ids f cs).map Constraint.handle = cs.map Constraint.handle := by
  have key : ∀ (f : Handle → Handle) (c : Constraint),
      (c.add_id_to_handles f).handle = c.handle
      ∧ (c.handle.id = none → (c.add_id_to_handles f).handle.id = none)
      ∧ (c.add_id_to_handles f).embeddedHandles = c.embeddedHandles.map f := by
    intro f c
    cases c with
    | Vanishes h d e =>
      exact ⟨rfl, fun hid => hid, nodeHandles_addId f e⟩
    | Plookup h xs ys =>
      refine ⟨rfl, fun hid => hid, ?_⟩
      simp only [Constraint.add_id_to_handles, Constraint.embeddedHandles,
        List.map_append, nodesHandles_addId]
    | Permutation h hs1 hs2 =>
      refine ⟨rfl, fun hid => hid, ?_⟩
      simp only [Constraint.add_id_to_handles, Constraint.embeddedHandles,
        List.map_append]
    | InRange h e m =>
      exact ⟨rfl, fun hid => hid, nodeHandles_addId f e⟩
  refine ⟨key, fun f cs => ?_⟩
  unfold update_ids
  rw [List.map_map]
  exact List.map_congr_left fun c _ => (key f c).1

/-- Witness for C10 on a concrete vanishing constraint whose naming
handle has no id. -/
theorem c10_witness :
    ((Constraint.Vanishes ⟨"m", "cstr", none⟩ none
        (Node.from_expr (.Column ⟨"m", "a", none⟩ .Atomic))).add_id_to_handles
          (fun h => h.set_id (some 5))).handle
      = Handle.mk "m" "cstr" none
    ∧ ((Constraint.Vanishes ⟨"m", "cstr", none⟩ none
        (Node.from_expr (.Column ⟨"m", "a", none⟩ .Atomic))).add_id_to_handles
          (fun h => h.set_id (some 5))).handle.id = none :=
  ⟨(c10_add_id_frame.1 _ _).1, (c10_add_id_frame.1 _ _).2.1 rfl⟩

/-! ### C7 -/

/-- C7: `compute_cyclic` fails exactly when the source column length is
smaller than the modulus; otherwise the target is `spilling` leading
zeros followed by `i % modulo` cast into the field for `i ∈ [0, L)`.
The hypothesis `0 < modulo` excludes the inputs on which the Rust
`i % modulo` would panic with a division by zero. -/
theorem c7_compute_cyclic (spilling fromLen modulo : Nat) (hm : 0 < modulo) :
    ((compute_cyclic spilling fromLen modulo).isOk = false ↔ fromLen < modulo)
    ∧ (modulo ≤ fromLen →
        compute_cyclic spilling fromLen modulo
          = .ok (List.replicate spilling 0 ++
              (List.range fromLen).map fun i => ((i % modulo : Nat) : Fr))
        ∧ ∃ out, compute_cyclic spilling fromLen modulo = .ok out
            ∧ out.length = spilling + fromLen
            ∧ (∀ k, k < spilling → out.getD k 1 = 0)
            ∧ (∀ i, i < fromLen → out.getD (spilling + i) 1 = ((i % modulo : Nat) : Fr))) := by
  constructor
  · unfold compute_cyclic
    by_cases h : fromLen < modulo <;> simp [h, Except.isOk, Except.toBool]
  · intro h
    have hnot : ¬ fromLen < modulo := not_lt.mpr h
    constructor
    · unfold compute_cyclic
      simp [hnot]
    · refine ⟨List.replicate spilling 0 ++
          (List.range fromLen).map fun i => ((i % modulo : Nat) : Fr),
        by unfold compute_cyclic; simp [hnot], ?_, ?_, ?_⟩
      · simp
      · intro k hk
        exact getD_repl_append_lt _ _ _ _ _ hk
      · intro i hi
        rw [getD_repl_append_add]
        exact getD_map_range _ _ _ _ hi

/-- Witness for C7 with `modulo = 3`, length `5`, spilling `2`. -/
theorem c7_witness :
    (0 < 3)
    ∧ (((compute_cyclic 2 5 3).isOk = false ↔ (5 : Nat) < 3)
    ∧ ((3 : Nat) ≤ 5 →
        compute_cyclic 2 5 3
          = .ok (List.replicate 2 0 ++
              (List.range 5).map fun i => ((i % 3 : Nat) : Fr))
        ∧ ∃ out, compute_cyclic 2 5 3 = .ok out
            ∧ out.length = 2 + 5
            ∧ (∀ k, k < 2 → out.getD k 1 = 0)
            ∧ (∀ i, i < 5 → out.getD (2 + i) 1 = ((i % 3 : Nat) : Fr)))) :=
  ⟨by decide, c7_compute_cyclic 2 5 3 (by decide)⟩

/-! ### C4 -/

theorem pairwiseEqNat_iff (a : Nat) (l : List Nat) :
    pairwiseEqNat (a :: l) = true ↔ ∀ x ∈ l, x = a := by
  induction l generalizing a with
  | nil => simp [pairwiseEqNat]
  | cons b t ih =>
    rw [show pairwiseEqNat (a :: b :: t) = ((a == b) && pairwiseEqNat (b :: t)) from rfl]
    rw [Bool.and_eq_true, beq_iff_eq, ih]
    constructor
    · rintro ⟨rfl, hall⟩
      intro x hx
      rcases List.mem_cons.mp hx with rfl | hx
      · rfl
      · exact hall x hx
    · intro hall
      have hb : b = a := hall b (List.mem_cons_self _ _)
      subst hb
      exact ⟨rfl, fun x hx => hall x (List.mem_cons_of_mem _ hx)⟩

/-- C4: `compute_interleaved` fails when the source columns do not all
have the same length; when they all have length `L` it succeeds with a
target of length `k·L` whose row `k·i + j` is `from[j][i]`. -/
theorem c4_compute_interleaved (froms : List (List Fr)) (hne : froms ≠ []) :
    ((¬ ∃ L, ∀ c ∈ froms, c.length = L) → (compute_interleaved froms).isOk = false)
    ∧ ∀ L, (∀ c ∈ froms, c.length = L) →
        ∃ out, compute_interleaved froms = .ok out
          ∧ out.length = froms.length * L
          ∧ ∀ i, i < L → ∀ j, j < froms.length →
              out.getD (froms.length * i + j) 0 = (froms.getD j []).getD i 0 := by
  obtain ⟨a, rest, rfl⟩ := List.exists_cons_of_ne_nil hne
  constructor
  · intro hno
    have hpw : pairwiseEqNat ((a :: rest).map List.length) = false := by
      rcases hb : pairwiseEqNat ((a :: rest).map List.length) with _ | _
      · rfl
      · exfalso
        apply hno
        refine ⟨a.length, fun c hc => ?_⟩
        rcases List.mem_cons.mp hc with rfl | hc
        · rfl
        · have := (pairwiseEqNat_iff a.length (rest.map List.length)).mp
            (by simpa using hb)
          exact this c.length (List.mem_map_of_mem _ hc)
    unfold compute_interleaved
    simp only [List.map_cons] at hpw
    simp [hpw, Except.isOk, Except.toBool]
  · intro L hL
    have hpw : pairwiseEqNat ((a :: rest).map List.length) = true := by
      have ha : a.length = L := hL a (List.mem_cons_self _ _)
      rw [show (a :: rest).map List.length = a.length :: rest.map List.length from rfl]
      rw [pairwiseEqNat_iff]
      intro x hx
      obtain ⟨c, hc, rfl⟩ := List.mem_map.mp hx
      rw [hL c (List.mem_cons_of_mem _ hc), ha]
    have hcount : 0 < (a :: rest).length := Nat.succ_pos _
    have hmapl : (a :: rest).map List.length = List.replicate (a :: rest).length L := by
      rw [List.eq_replicate_iff]
      refine ⟨by simp, fun b hb => ?_⟩
      obtain ⟨c, hc, rfl⟩ := List.mem_map.mp hb
      exact hL c hc
    have hsum : ((a :: rest).map List.length).sum = (a :: rest).length * L := by
      rw [hmapl, List.sum_replicate, smul_eq_mul]
    have hok : compute_interleaved (a :: rest)
        = .ok ((List.range (((a :: rest).map List.length).sum)).map fun k =>
            ((a :: rest).getD (k % (a :: rest).length) []).getD
              (k / (a :: rest).length) 0) := by
      unfold compute_interleaved
      rw [hpw]
      rfl
    refine ⟨_, hok, ?_, ?_⟩
    · simpa using hsum
    · intro i hi j hj
      set k := (a :: rest).length * i + j with hk
      have hklt : k < ((a :: rest).map List.length).sum := by
        rw [hsum, hk]
        calc (a :: rest).length * i + j
            < (a :: rest).length * i + (a :: rest).length := by omega
          _ = (a :: rest).length * (i + 1) := by ring
          _ ≤ (a :: rest).length * L := Nat.mul_le_mul_left _ hi
      rw [getD_map_range _ _ _ _ hklt]
      have hmod : k % (a :: rest).length = j := by
        rw [hk, Nat.mul_add_mod, Nat.mod_eq_of_lt hj]
      have hdiv : k / (a :: rest).length = i := by
        rw [hk, Nat.mul_add_div hcount, Nat.div_eq_of_lt hj, Nat.add_zero]
      rw [hmod, hdiv]

/-- Witness for C4 with two columns of length two. -/
theorem c4_witness :
    (([[ (1 : Fr), 2], [10, 20]] : List (List Fr)) ≠ [])
    ∧ (((¬ ∃ L, ∀ c ∈ [[(1 : Fr), 2], [10, 20]], c.length = L) →
        (compute_interleaved [[(1 : Fr), 2], [10, 20]]).isOk = false)
      ∧ ∀ L, (∀ c ∈ [[(1 : Fr), 2], [10, 20]], c.length = L) →
        ∃ out, compute_interleaved [[(1 : Fr), 2], [10, 20]] = .ok out
          ∧ out.length = ([[(1 : Fr), 2], [10, 20]] : List (List Fr)).length * L
          ∧ ∀ i, i < L → ∀ j, j < ([[(1 : Fr), 2], [10, 20]] : List (List Fr)).length →
              out.getD (([[(1 : Fr), 2], [10, 20]] : List (List Fr)).length * i + j) 0
                = (([[(1 : Fr), 2], [10, 20]] : List (List Fr)).getD j []).getD i 0) :=
  ⟨by simp, c4_compute_interleaved _ (by simp)⟩

/-! ### C2 -/

/-- C2: on first touch of module `m`, `spilling_or_insert` computes
`max(|min past_spill|, max future_spill)` over exactly the composite
computations targeting `m` (0 when there are none), caches it, and every
later query for `m` returns the cached value unchanged. -/
theorem c2_spilling_or_insert (cs : SpillState) (m : String)
    (h : cs._spilling.lookup m = none) :
    ((spilling_or_insert cs m).1 =
      max
        (abs ((cs.computations.filterMap fun c =>
          match c with
          | .Composite target exp =>
            if target.module = m then some exp.past_spill else none
          | _ => none).min?.getD 0))
        ((cs.computations.filterMap fun c =>
          match c with
          | .Composite target exp =>
            if target.module = m then some exp.future_spill else none
          | _ => none).max?.getD 0))
    ∧ ((∀ c ∈ cs.computations, ∀ target exp, c = .Composite target exp →
          target.module ≠ m) → (spilling_or_insert cs m).1 = 0)
    ∧ spilling_or_insert (spilling_or_insert cs m).2 m
        = ((spilling_or_insert cs m).1, (spilling_or_insert cs m).2) := by
  have hval : spilling_or_insert cs m
      = (computeSpilling cs.computations m,
         { cs with _spilling := (m, computeSpilling cs.computations m) :: cs._spilling }) := by
    unfold spilling_or_insert
    rw [h]
  refine ⟨?_, ?_, ?_⟩
  · rw [hval]
    rfl
  · intro hnone
    rw [hval]
    have hpast : (cs.computations.filterMap fun c =>
        match c with
        | .Composite target exp =>
          if target.module = m then some exp.past_spill else none
        | _ => none) = [] := by
      rw [List.filterMap_eq_nil_iff]
      intro c hc
      cases c with
      | Composite target exp =>
        simp only [if_neg (hnone _ hc target exp rfl)]
      | Interleaved target froms => rfl
      | Sorted froms tos signs => rfl
      | CyclicFrom target froms modulo => rfl
      | SortingConstraints ats eq delta db signs froms sorted => rfl
    have hfut : (cs.computations.filterMap fun c =>
        match c with
        | .Composite target exp =>
          if target.module = m then some exp.future_spill else none
        | _ => none) = [] := by
      rw [List.filterMap_eq_nil_iff]
      intro c hc
      cases c with
      | Composite target exp =>
        simp only [if_neg (hnone _ hc target exp rfl)]
      | Interleaved target froms => rfl
      | Sorted froms tos signs => rfl
      | CyclicFrom target froms modulo => rfl
      | SortingConstraints ats eq delta db signs froms sorted => rfl
    show computeSpilling cs.computations m = 0
    unfold computeSpilling
    rw [hpast, hfut]
    rfl
  · rw [hval]
    show spilling_or_insert _ m = _
    unfold spilling_or_insert
    simp [List.lookup]

/-- Witness for C2: one composite computation targeting `"m"` whose
expression shifts a column by `-2`; the spilling is `2` and a second
query returns the cached pair. -/
theorem c2_witness :
    c2fix._spilling.lookup "m" = none
    ∧ (spilling_or_insert c2fix "m").1 = 2
    ∧ spilling_or_insert (spilling_or_insert c2fix "m").2 "m"
        = ((spilling_or_insert c2fix "m").1, (spilling_or_insert c2fix "m").2) :=
  ⟨rfl,
    ((c2_spilling_or_insert c2fix "m" rfl).1).trans (by decide),
    (c2_spilling_or_insert c2fix "m" rfl).2.2⟩

/-! ### C5 -/

theorem ty_le_refl : ∀ a : Ty, Ty.le a a := by decide

theorem ty_max_shapeRank : ∀ a b : Ty,
    (Ty.max a b).shapeRank = Nat.max a.shapeRank b.shapeRank := by decide

theorem ty_max_magma_rank : ∀ a b : Ty,
    (Ty.max a b).magma.rank = Nat.max a.magma.rank b.magma.rank := by decide

theorem ty_same_scale_mono : ∀ (m : Magma) (a b : Ty),
    Ty.le a b → Ty.le (a.same_scale m) (b.same_scale m) := by decide

theorem ty_list_magma_mono : ∀ a b : Ty,
    Ty.le a b → Ty.le (Ty.List a.magma) (Ty.List b.magma) := by decide

theorem ty_column_magma_mono : ∀ a b : Ty,
    Ty.le a b → Ty.le (Ty.Column a.magma) (Ty.Column b.magma) := by decide

theorem ty_max_mono {a a' b b' : Ty} (h1 : Ty.le a a') (h2 : Ty.le b b') :
    Ty.le (Ty.max a b) (Ty.max a' b') := by
  obtain ⟨hs1, hm1⟩ := h1
  obtain ⟨hs2, hm2⟩ := h2
  constructor
  · rw [ty_max_shapeRank, ty_max_shapeRank]
    exact max_le_max hs1 hs2
  · rw [ty_max_magma_rank, ty_max_magma_rank]
    exact max_le_max hm1 hm2

theorem foldl_ty_max_mono : ∀ {l l' : List Ty}, List.Forall₂ Ty.le l l' →
    ∀ {a a' : Ty}, Ty.le a a' → Ty.le (l.foldl Ty.max a) (l'.foldl Ty.max a') := by
  intro l l' h
  induction h with
  | nil => intro a a' ha; simpa using ha
  | cons hab htl ih =>
    intro a a' ha
    simpa using ih (ty_max_mono ha hab)

theorem forall2_getD_le : ∀ {l l' : List Ty}, List.Forall₂ Ty.le l l' →
    ∀ (i : Nat) {d d' : Ty}, Ty.le d d' → Ty.le (l.getD i d) (l'.getD i d') := by
  intro l l' h
  induction h with
  | nil => intro i d d' hd; simpa using hd
  | @cons a b as bs hab htl ih =>
    intro i d d' hd
    cases i with
    | zero => simpa using hab
    | succ n => simpa using ih n hd

/-- C5 counterexample: typing is *not* monotone for every builtin.  With
`[Scalar Boolean] ≤ [Scalar Nibble]` pointwise, `typing(add, ·)` gives
`Scalar Integer` on the left (Boolean promotion) but `Scalar Nibble` on
the right, and `Scalar Integer ≰ Scalar Nibble`. -/
theorem c5_counterexample :
    List.Forall₂ Ty.le [Ty.Scalar .Boolean] [Ty.Scalar .Nibble]
    ∧ ¬ Ty.le (Builtin.typing .Add [Ty.Scalar .Boolean])
        (Builtin.typing .Add [Ty.Scalar .Nibble]) := by
  constructor
  · exact List.Forall₂.cons (by decide) List.Forall₂.nil
  · decide

/-- C5 (amended): `typing` is monotone in the type lattice for every
builtin except the additive/inverse ones (`add`, `sub`, `neg`, `inv`),
whose Boolean-to-Integer promotion breaks monotonicity. -/
theorem c5_typing_monotone_amended (b : Builtin)
    (hb : b ≠ .Add ∧ b ≠ .Sub ∧ b ≠ .Neg ∧ b ≠ .Inv)
    {t t' : List Ty} (h : List.Forall₂ Ty.le t t') :
    Ty.le (b.typing t) (b.typing t') := by
  have hfold : Ty.le (t.foldl Ty.max Ty.INFIMUM) (t'.foldl Ty.max Ty.INFIMUM) :=
    foldl_ty_max_mono h (ty_le_refl _)
  have hgetD : ∀ i : Nat, Ty.le (t.getD i Ty.INFIMUM) (t'.getD i Ty.INFIMUM) :=
    fun i => forall2_getD_le h i (ty_le_refl _)
  cases b with
  | Add => exact absurd rfl hb.1
  | Sub => exact absurd rfl hb.2.1
  | Neg => exact absurd rfl hb.2.2.1
  | Inv => exact absurd rfl hb.2.2.2
  | Exp => exact hgetD 0
  | Eq => exact hfold
  | Not => exact ty_same_scale_mono _ _ _ hfold
  | Mul => exact hfold
  | IfZero => exact ty_max_mono (hgetD 1) (hgetD 2)
  | IfNotZero => exact ty_max_mono (hgetD 1) (hgetD 2)
  | Begin => exact ty_list_magma_mono _ _ hfold
  | Nth => exact ty_column_magma_mono _ _ (hgetD 0)
  | Shift => exact hgetD 0
  | Len => exact ty_le_refl _

/-- Witness for the amended C5 at `mul` on `[Scalar Boolean] ≤
`[Column Integer]`. -/
theorem c5_witness :
    (Builtin.Mul ≠ .Add ∧ Builtin.Mul ≠ .Sub ∧ Builtin.Mul ≠ .Neg ∧ Builtin.Mul ≠ .Inv)
    ∧ List.Forall₂ Ty.le [Ty.Scalar .Boolean] [Ty.Column .Integer]
    ∧ Ty.le (Builtin.typing .Mul [Ty.Scalar .Boolean])
        (Builtin.typing .Mul [Ty.Column .Integer]) :=
  ⟨by decide, List.Forall₂.cons (by decide) List.Forall₂.nil,
    c5_typing_monotone_amended .Mul (by decide)
      (List.Forall₂.cons (by decide) List.Forall₂.nil)⟩

/-! ### C6 -/

theorem nextPow2Aux_le : ∀ (fuel n power : Nat), n ≤ 2 ^ fuel * power →
    n ≤ nextPow2Aux fuel n power := by
  intro fuel
  induction fuel with
  | zero =>
    intro n power h
    simpa [nextPow2Aux] using h.trans_eq (by ring_nf)
  | succ f ih =>
    intro n power h
    unfold nextPow2Aux
    by_cases hlt : power < n
    · rw [if_pos hlt]
      exact ih n (power * 2) (by calc n ≤ 2 ^ (f + 1) * power := h
                                    _ = 2 ^ f * (power * 2) := by ring)
    · rw [if_neg hlt]
      exact Nat.le_of_not_lt hlt

theorem le_nextPow2 (n : Nat) : n ≤ nextPow2 n :=
  nextPow2Aux_le n n 1 (by simpa using (Nat.lt_two_pow n).le)

theorem padColumn_eq (n : Nat) (xs : List Fr) (h : xs.length ≤ n) :
    padColumn n xs = List.replicate (n - xs.length) 0 ++ xs := by
  unfold padColumn listResize
  rcases Nat.eq_or_lt_of_le h with heq | hlt
  · rw [if_pos (by simpa using heq.ge)]
    rw [← heq]
    simp [List.take_of_length_le]
  · rw [if_neg (by simpa using hlt)]
    rw [List.reverse_append, List.reverse_reverse, List.reverse_replicate]
    simp

theorem foldl_max_le_of_mem : ∀ (l : List Nat) (a x : Nat), x ∈ l ∨ x ≤ a →
    x ≤ l.foldl Nat.max a := by
  intro l
  induction l with
  | nil =>
    intro a x h
    simpa using h.resolve_left (by simp)
  | cons b t ih =>
    intro a x h
    rcases h with h | h
    · rcases List.mem_cons.mp h with rfl | h
      · exact ih _ _ (Or.inr (Nat.le_max_right _ _))
      · exact ih _ _ (Or.inl h)
    · exact ih _ _ (Or.inr (h.trans (Nat.le_max_left _ _)))

theorem len_le_maxLen (r : TraceCols) :
    ∀ m ∈ r.cols, ∀ c ∈ m.2, c.2.length ≤ r.maxLen := by
  intro m hm c hc
  unfold TraceCols.maxLen
  refine foldl_max_le_of_mem _ _ _ (Or.inl ?_)
  rw [List.mem_flatten]
  exact ⟨m.2.map fun c => c.2.length, List.mem_map_of_mem _ hm,
    List.mem_map_of_mem _ hc⟩

/-- C6 counterexample: with modules of raw lengths 2 and 5 (and no
computations, i.e. spilling 0), `pad` brings the length-2 column of
module `m1` to the single global target `next_power_of_two(5 + 1) = 8` —
not to `m1`'s own next power of two plus its spilling (2 + 0, or 4 + 0 on
the strictly-greater reading). -/
theorem c6_counterexample :
    (((pad ⟨[("m1", [("a", List.replicate 2 1)]),
             ("m2", [("b", List.replicate 5 1)])]⟩).cols.getD 0
        ("", [])).2.getD 0 ("", [])).2.length = 8
    ∧ (8 : Nat) ≠ nextPow2 2 + (computeSpilling [] "m1").toNat
    ∧ (8 : Nat) ≠ nextPow2 (2 + 1) + (computeSpilling [] "m1").toNat := by
  refine ⟨rfl, by decide, by decide⟩

theorem padColumn_length (n : Nat) (xs : List Fr) : (padColumn n xs).length = n := by
  unfold padColumn listResize
  by_cases h : n ≤ xs.reverse.length
  · rw [if_pos h]
    simp only [List.length_reverse, List.length_take]
    simp only [List.length_reverse] at h
    omega
  · rw [if_neg h]
    simp only [List.length_reverse] at h
    simp only [List.length_reverse, List.length_append, List.length_replicate]
    omega

theorem setNotRows_length (p : Nat) (xs : List Fr) :
    (setNotRows p xs).length = xs.length := by
  unfold setNotRows
  simp only [List.length_append, List.length_map, List.length_take, List.length_drop]
  omega

theorem setNotRows_all (p : Nat) (xs : List Fr) (h : xs.length ≤ p) :
    setNotRows p xs = List.replicate xs.length 255 := by
  unfold setNotRows
  rw [List.take_of_length_le h, List.drop_eq_nil_of_le h, List.append_nil]
  exact List.map_const' xs 255

/-- C6 (amended): on a nonempty trace — under release semantics; a debug
build instead panics on the underflowing `max_len - pad_to` before
padding anything — `pad` prepends zeros to every column of every module
so that each reaches the single global length
`pad_to = next_power_of_two(max_len + 1)` (`max_len` the maximum column
length over all modules; no spilling is added), and then overwrites the
first `padded` rows of any `binary.NOT` column with 255, where `padded`
is the wrapped `max_len - pad_to`; since `padded` wraps to
`2^64 - (pad_to - max_len)`, whenever `2·pad_to ≤ 2^64` the whole
`binary.NOT` column becomes 255. -/
theorem c6_pad_amended (r : TraceCols) (h : r.cols.isEmpty = false) :
    ((pad r).cols
      = (r.cols.map fun m => (m.1, m.2.map fun c =>
          (c.1, List.replicate (nextPow2 (r.maxLen + 1) - c.2.length) 0 ++ c.2))).map
          (fun m =>
            if m.1 = "binary" then
              (m.1, m.2.map fun c =>
                if c.1 = "NOT" then
                  (c.1, setNotRows (usizeSub r.maxLen (nextPow2 (r.maxLen + 1))) c.2)
                else c)
            else m))
    ∧ (∀ m ∈ (pad r).cols, ∀ c ∈ m.2, c.2.length = nextPow2 (r.maxLen + 1))
    ∧ (2 * nextPow2 (r.maxLen + 1) ≤ 2 ^ usizeBits →
        ∀ m ∈ (pad r).cols, m.1 = "binary" → ∀ c ∈ m.2, c.1 = "NOT" →
          c.2 = List.replicate (nextPow2 (r.maxLen + 1)) 255) := by
  have hmax : r.maxLen < nextPow2 (r.maxLen + 1) :=
    Nat.lt_of_lt_of_le (Nat.lt_succ_self _) (le_nextPow2 _)
  have hlen : ∀ m ∈ r.cols, ∀ c ∈ m.2, c.2.length < nextPow2 (r.maxLen + 1) :=
    fun m hm c hc => Nat.lt_of_le_of_lt (len_le_maxLen r m hm c hc) hmax
  have hpadshape : (pad r).cols
      = (r.cols.map fun m => (m.1, m.2.map fun c =>
          (c.1, padColumn (nextPow2 (r.maxLen + 1)) c.2))).map
          (fun m =>
            if m.1 = "binary" then
              (m.1, m.2.map fun c =>
                if c.1 = "NOT" then
                  (c.1, setNotRows (usizeSub r.maxLen (nextPow2 (r.maxLen + 1))) c.2)
                else c)
            else m) := by
    unfold pad
    rw [if_neg (by simp [h])]
  have ha : (pad r).cols
      = (r.cols.map fun m => (m.1, m.2.map fun c =>
          (c.1, List.replicate (nextPow2 (r.maxLen + 1) - c.2.length) 0 ++ c.2))).map
          (fun m =>
            if m.1 = "binary" then
              (m.1, m.2.map fun c =>
                if c.1 = "NOT" then
                  (c.1, setNotRows (usizeSub r.maxLen (nextPow2 (r.maxLen + 1))) c.2)
                else c)
            else m) := by
    rw [hpadshape]
    refine congrArg (List.map _) ?_
    refine List.map_congr_left fun m hm => ?_
    refine congrArg _ (List.map_congr_left fun c hc => congrArg _ ?_)
    exact padColumn_eq _ _ (hlen m hm c hc).le
  refine ⟨ha, ?_, ?_⟩
  · intro m hm c hc
    rw [hpadshape] at hm
    obtain ⟨m1, hm1, rfl⟩ := List.mem_map.mp hm
    obtain ⟨m0, hm0, rfl⟩ := List.mem_map.mp hm1
    split_ifs at hc with hb
    · obtain ⟨c1, hc1, rfl⟩ := List.mem_map.mp hc
      obtain ⟨c0, hc0, rfl⟩ := List.mem_map.mp hc1
      split_ifs with hn
      · exact (setNotRows_length _ _).trans (padColumn_length _ _)
      · exact padColumn_length _ _
    · obtain ⟨c0, hc0, rfl⟩ := List.mem_map.mp hc
      exact padColumn_length _ _
  · intro hsize m hm hbin c hc hnot
    have hpadded : nextPow2 (r.maxLen + 1)
        ≤ usizeSub r.maxLen (nextPow2 (r.maxLen + 1)) := by
      unfold usizeSub
      unfold usizeBits at hsize ⊢
      rw [Nat.mod_eq_of_lt (by omega)]
      omega
    rw [hpadshape] at hm
    obtain ⟨m1, hm1, rfl⟩ := List.mem_map.mp hm
    obtain ⟨m0, hm0, rfl⟩ := List.mem_map.mp hm1
    split_ifs at hbin hc with hb
    · obtain ⟨c1, hc1, rfl⟩ := List.mem_map.mp hc
      obtain ⟨c0, hc0, rfl⟩ := List.mem_map.mp hc1
      split_ifs at hnot ⊢ with hn
      · show setNotRows _ (padColumn _ c0.2) = _
        rw [setNotRows_all _ _ (by rw [padColumn_length]; exact hpadded),
          padColumn_length]
      · exact absurd hnot hn
    · exact absurd hbin hb

/-- Witness for the amended C6 on a trace holding exactly a `binary.NOT`
column of raw length 3: after `pad`, the column has the global length 4
and is entirely 255. -/
theorem c6_witness :
    ((TraceCols.mk [("binary", [("NOT", [(1 : Fr), 2, 3])])]).cols.isEmpty = false)
    ∧ (2 * nextPow2 ((TraceCols.mk [("binary", [("NOT", [(1 : Fr), 2, 3])])]).maxLen + 1)
        ≤ 2 ^ usizeBits)
    ∧ ("NOT", List.replicate 4 (255 : Fr)).2
        = List.replicate
            (nextPow2 ((TraceCols.mk
              [("binary", [("NOT", [(1 : Fr), 2, 3])])]).maxLen + 1)) 255 :=
  ⟨rfl, by decide,
    (c6_pad_amended ⟨[("binary", [("NOT", [(1 : Fr), 2, 3])])]⟩ rfl).2.2 (by decide)
      ("binary", [("NOT", List.replicate 4 (255 : Fr))]) (by decide) rfl
      ("NOT", List.replicate 4 (255 : Fr)) (by decide) rfl⟩

/-! ### C1 -/

theorem atsRow_length : ∀ (cols : List (Int → Option Fr)) (f : Bool) (i : Int),
    (atsRow cols f i).1.length = cols.length := by
  intro cols
  induction cols with
  | nil => intro f i; rfl
  | cons c rest ih =>
    intro f i
    unfold atsRow
    rcases hr : atsRow rest (f || !colRowsEq c i) i with ⟨vs, fl⟩
    simp only [hr]
    have hv : vs.length = rest.length := by
      have := ih (f || !colRowsEq c i) i
      rw [hr] at this
      exact this
    simp [hv]

theorem atsRow_found : ∀ (cols : List (Int → Option Fr)) (f : Bool) (i : Int),
    (atsRow cols f i).2 = (f || cols.any fun c => !colRowsEq c i) := by
  intro cols
  induction cols with
  | nil => intro f i; simp [atsRow]
  | cons c rest ih =>
    intro f i
    unfold atsRow
    rcases hr : atsRow rest (f || !colRowsEq c i) i with ⟨vs, fl⟩
    simp only [hr, List.any_cons]
    have h2 : fl = ((f || !colRowsEq c i) || rest.any fun c => !colRowsEq c i) := by
      have := ih (f || !colRowsEq c i) i
      rw [hr] at this
      exact this
    rw [h2, Bool.or_assoc]

theorem atsRow_sum : ∀ (cols : List (Int → Option Fr)) (f : Bool) (i : Int),
    (atsRow cols f i).1.sum = (if (atsRow cols f i).2 && !f then (1 : Fr) else 0) := by
  intro cols
  induction cols with
  | nil => intro f i; simp [atsRow]
  | cons c rest ih =>
    intro f i
    unfold atsRow
    rcases hr : atsRow rest (f || !colRowsEq c i) i with ⟨vs, fl⟩
    have hsum : vs.sum = (if fl && !(f || !colRowsEq c i) then (1 : Fr) else 0) := by
      have := ih (f || !colRowsEq c i) i
      rw [hr] at this
      exact this
    have hfl : fl = ((f || !colRowsEq c i) || rest.any fun c => !colRowsEq c i) := by
      have := atsRow_found rest (f || !colRowsEq c i) i
      rw [hr] at this
      exact this
    rcases hq : colRowsEq c i with _ | _ <;> rcases f with _ | _ <;>
      simp_all [List.sum_cons, Bool.or_assoc]

theorem signed_sum_eq : ∀ (as : List Fr) (cols : List (Int → Option Fr))
    (signs : List Bool) (i : Int),
    as.length = cols.length → signs.length = cols.length →
    ((as.zip (cols.zip signs)).map fun p =>
      let term := (((p.2.1 i).getD 0) - ((p.2.1 (i - 1)).getD 0)) * p.1
      if p.2.2 then term else -term).sum
    = ((List.range cols.length).map fun l =>
        (as.getD l 0) * (if signs.getD l true then (1 : Fr) else -1)
        * (((cols.getD l fun _ => none) i).getD 0
           - ((cols.getD l fun _ => none) (i - 1)).getD 0)).sum := by
  intro as
  induction as with
  | nil =>
    intro cols signs i h1 h2
    have hc : cols.length = 0 := h1.symm
    rw [hc]
    simp
  | cons a as ih =>
    intro cols signs i h1 h2
    rcases cols with _ | ⟨c, cols⟩
    · simp at h1
    rcases signs with _ | ⟨sg, signs⟩
    · simp at h2
    simp only [List.zip_cons_cons, List.map_cons, List.sum_cons, List.length_cons]
    rw [List.range_succ_eq_map]
    simp only [List.map_cons, List.map_map, List.sum_cons]
    congr 1
    · rcases sg with _ | _ <;> simp [List.getD_cons_zero] <;> ring
    · rw [ih cols signs i (by simpa using h1) (by simpa using h2)]
      exact congrArg List.sum (List.map_congr_left fun l _ => by
        simp [Function.comp, List.getD_cons_succ])

/-- C1: at every computed row of `compute_sorting_auxs`,
`Eq + Σ_l @_l = 1`; when `Eq = 0`, `Delta` is the signed sum
`Σ_l @_l · sign_l · (sorted[l][i] − sorted[l][i−1])`, and `Delta = 0`
otherwise; and in the spilling rows `@ = 0`, `Eq = 1`, `Delta = 0`. -/
theorem c1_sorting_auxs (cols : List (Int → Option Fr)) (signs : List Bool)
    (spilling len : Nat) (hs : signs.length = cols.length) :
    (∀ a ∈ (compute_sorting_auxs cols signs spilling len).ats,
        ∀ k, k < spilling → a.getD k 1 = 0)
    ∧ (∀ k, k < spilling →
        (compute_sorting_auxs cols signs spilling len).eqs.getD k 0 = 1)
    ∧ (∀ k, k < spilling →
        (compute_sorting_auxs cols signs spilling len).deltas.getD k 1 = 0)
    ∧ (∀ i, i < len →
        (compute_sorting_auxs cols signs spilling len).eqs.getD (spilling + i) 0
          + ((compute_sorting_auxs cols signs spilling len).ats.map fun a =>
              a.getD (spilling + i) 0).sum = 1)
    ∧ (∀ i, i < len →
        (compute_sorting_auxs cols signs spilling len).eqs.getD (spilling + i) 0 = 0 →
        (compute_sorting_auxs cols signs spilling len).deltas.getD (spilling + i) 1
          = ((List.range cols.length).map fun l =>
              (((compute_sorting_auxs cols signs spilling len).ats.getD l
                  []).getD (spilling + i) 0)
              * (if signs.getD l true then (1 : Fr) else -1)
              * (((cols.getD l fun _ => none) (i : Int)).getD 0
                 - ((cols.getD l fun _ => none) ((i : Int) - 1)).getD 0)).sum)
    ∧ (∀ i, i < len →
        (compute_sorting_auxs cols signs spilling len).eqs.getD (spilling + i) 0 ≠ 0 →
        (compute_sorting_auxs cols signs spilling len).deltas.getD (spilling + i) 1 = 0) := by
  have hone : (1 : Fr) ≠ 0 := by
    haveI : Fact (1 < frOrder) := ⟨by norm_num [frOrder]⟩
    exact one_ne_zero
  have heqs : ∀ i, i < len →
      (compute_sorting_auxs cols signs spilling len).eqs.getD (spilling + i) 0
      = (if (atsRow cols false (i : Int)).2 then (0 : Fr) else 1) := by
    intro i hi
    show (List.replicate spilling (1 : Fr) ++ _).getD (spilling + i) 0 = _
    rw [getD_repl_append_add]
    exact getD_map_range _ _ _ _ hi
  have hdels : ∀ i, i < len →
      (compute_sorting_auxs cols signs spilling len).deltas.getD (spilling + i) 1
      = deltaRow cols signs (i : Int) := by
    intro i hi
    show (List.replicate spilling (0 : Fr) ++ _).getD (spilling + i) 1 = _
    rw [getD_repl_append_add]
    exact getD_map_range _ _ _ _ hi
  have hatl : ∀ i, i < len → ∀ l, l < cols.length →
      ((compute_sorting_auxs cols signs spilling len).ats.getD l []).getD
        (spilling + i) 0 = (atsRow cols false (i : Int)).1.getD l 0 := by
    intro i hi l hl
    show (((List.range cols.length).map _).getD l []).getD (spilling + i) 0 = _
    rw [getD_map_range _ _ _ _ hl, getD_repl_append_add]
    exact getD_map_range _ _ _ _ hi
  have hats : ∀ i, i < len →
      ((compute_sorting_auxs cols signs spilling len).ats.map fun a =>
        a.getD (spilling + i) 0) = (atsRow cols false (i : Int)).1 := by
    intro i hi
    show ((List.range cols.length).map _).map _ = _
    rw [List.map_map]
    have hlen : (atsRow cols false (i : Int)).1.length = cols.length :=
      atsRow_length cols false (i : Int)
    calc (List.range cols.length).map
          ((fun a => a.getD (spilling + i) 0) ∘ fun l =>
            List.replicate spilling 0 ++
              (List.range len).map fun (i' : Nat) => ((atsRow cols false (i' : Int)).1.getD l 0))
        = (List.range cols.length).map
            (fun l => (atsRow cols false (i : Int)).1.getD l 0) := by
          refine List.map_congr_left fun l _ => ?_
          show (List.replicate spilling (0 : Fr) ++ _).getD (spilling + i) 0 = _
          rw [getD_repl_append_add]
          exact getD_map_range _ _ _ _ hi
      _ = (atsRow cols false (i : Int)).1 := by
          rw [← hlen]
          exact map_getD_range_eq _ _
  refine ⟨?_, ?_, ?_, ?_, ?_, ?_⟩
  · intro a ha k hk
    obtain ⟨l, _, rfl⟩ := List.mem_map.mp ha
    exact getD_repl_append_lt _ _ _ _ _ hk
  · intro k hk
    exact getD_repl_append_lt _ _ _ _ _ hk
  · intro k hk
    exact getD_repl_append_lt _ _ _ _ _ hk
  · intro i hi
    rw [heqs i hi, hats i hi, atsRow_sum]
    rcases hf : (atsRow cols false (i : Int)).2 with _ | _ <;> simp [hf]
  · intro i hi h0
    rw [heqs i hi] at h0
    have hfound : (atsRow cols false (i : Int)).2 = true := by
      rcases hf : (atsRow cols false (i : Int)).2 with _ | _
      · rw [hf] at h0
        simp at h0
        exact absurd h0 hone
      · rfl
    rw [hdels i hi]
    unfold deltaRow
    rw [hfound, if_pos rfl]
    rw [signed_sum_eq _ cols signs _ (atsRow_length cols false _) hs]
    exact congrArg List.sum (List.map_congr_left fun l hl => by
      rw [hatl i hi l (List.mem_range.mp hl)])
  · intro i hi h0
    rw [heqs i hi] at h0
    have hfound : (atsRow cols false (i : Int)).2 = false := by
      rcases hf : (atsRow cols false (i : Int)).2 with _ | _
      · rfl
      · rw [hf] at h0
        simp at h0
    rw [hdels i hi]
    unfold deltaRow
    rw [hfound]
    simp

/-- Witness for C1 on the concrete fixture, exercising the
`Eq + Σ @ = 1` clause at row 0. -/
theorem c1_witness :
    ([true].length = c1cols.length)
    ∧ ((0 : Nat) < 2)
    ∧ ((compute_sorting_auxs c1cols [true] 1 2).eqs.getD (1 + 0) 0
        + ((compute_sorting_auxs c1cols [true] 1 2).ats.map fun a =>
            a.getD (1 + 0) 0).sum = 1) :=
  ⟨rfl, by decide, (c1_sorting_auxs c1cols [true] 1 2 rfl).2.2.2.1 0 (by decide)⟩

/-- Witness for the amended C8 on a concrete accepted legacy call. -/
theorem c8_witness :
    ((pShiftValidateArgs [PConstraint.Column "X", PConstraint.Const 2]).isOk = true ↔
      (([PConstraint.Column "X", PConstraint.Const 2] : List PConstraint).length = 2
        ∧ (∃ s, ([PConstraint.Column "X", PConstraint.Const 2] : List PConstraint).getD 0
            (.Const 0) = .Column s)
        ∧ ∃ x, ([PConstraint.Column "X", PConstraint.Const 2] : List PConstraint).getD 1
            (.Const 0) = .Const x ∧ x ≠ 0))
    ∧ (applyBuiltin .Shift
        [Node.from_expr (.Column ⟨"m", "Y", none⟩ .Atomic),
         Node.from_const 0]).isOk = true :=
  ⟨c8_shift_offset_amended.1 _, c8_shift_offset_amended.2 _⟩

/-- Witness for C9: with the first of two computations failing, the
overall result is still `Ok` and the second computation is attempted. -/
theorem c9_witness :
    (compute_all (fun i => if i == 0 then Except.error "boom" else Except.ok ()) 2).1
      = Except.ok ()
    ∧ (compute_all (fun i => if i == 0 then Except.error "boom" else Except.ok ()) 2).2.getD
        1 (0, none) = (1, none) :=
  ⟨(c9_compute_all_soldiers_on (fun i => if i == 0 then Except.error "boom" else Except.ok ()) 2).1,
   (c9_compute_all_soldiers_on (fun i => if i == 0 then Except.error "boom" else Except.ok ()) 2).2.2
      1 (by decide)⟩
